import Mathlib

set_option autoImplicit false

namespace SkyrimTranslate

/-
Verification of the glossary masking / unmasking engine and the anomaly
classifier of the translate-skyrim repository.

Text is modelled as `List Char` (with `String` at the API edges).  The scripts
operate on ASCII game text; `Char.isUpper`, `Char.isLower`, `Char.isAlpha`,
`Char.isDigit` and `Char.toLower` agree with the JavaScript regex classes
`[A-Z]`, `[a-z]`, `[A-Za-z]`, `[0-9]` and with ASCII case folding used by the
`i` regex flag and `String.prototype.toLowerCase`.
-/

/-- Word character for the JavaScript regex `\b` anchor: `[A-Za-z0-9_]`. -/
def isWordChar (c : Char) : Bool := c.isAlpha || c.isDigit || c == '_'

/-- ASCII lower-casing of a character list, modelling `toLowerCase()`. -/
def lowerStr (s : List Char) : List Char := s.map Char.toLower

/-
Anomaly classifier, from `src/lib/db/schema.ts`.
-/

/-- The anomaly taxonomy of `src/lib/db/schema.ts` (`AnomalyType`). -/
inductive AnomalyType
  | missing
  | same
  | dlc
  | tech
  | punct
deriving DecidableEq, Repr

/-- Scan for the regex `/DLC\d+/i`: some position holds `D`,`L`,`C`
(case-insensitively) immediately followed by a digit. -/
def dlcTest : List Char → Bool
  | [] => false
  | c :: cs =>
    (match cs with
     | l :: c2 :: k :: _ =>
       c.toLower == 'd' && l.toLower == 'l' && c2.toLower == 'c' && k.isDigit
     | _ => false) || dlcTest cs

/-- `listPrefix p s` holds when `p` is a (case-sensitive) prefix of `s`,
modelling `String.prototype.startsWith`. -/
def listPrefix : List Char → List Char → Bool
  | [], _ => true
  | _ :: _, [] => false
  | p :: ps, c :: cs => p == c && listPrefix ps cs

/-- `isDLC` from `src/lib/db/schema.ts`:
`/DLC\d+/i.test(text) || text.startsWith("DLC")`. -/
def isDLC (text : String) : Bool :=
  dlcTest text.data || listPrefix "DLC".data text.data

/-- `isTechnical` from `src/lib/db/schema.ts`. -/
def isTechnical (text : String) : Bool :=
  if text.data.any (· == ' ') then false
  else
    let hasUpper := text.data.any Char.isUpper
    if !hasUpper then false
    else
      let hasNumber := text.data.any Char.isDigit
      let hasUnderscore := text.data.any (· == '_')
      let upperCount := (text.data.filter Char.isUpper).length
      hasNumber || hasUnderscore || decide (upperCount > 1)

/-- The critical punctuation class `[<>"]` kept by
`getCriticalPunctuation` in `src/lib/db/schema.ts`
(the code deletes every character matching `[^<>"]`). -/
def isCritical (c : Char) : Bool := c == '<' || c == '>' || c == '"'

/-- `getCriticalPunctuation` from `src/lib/db/schema.ts`: keep only the
characters `<`, `>`, `"`, in order. -/
def getCriticalPunctuation (s : String) : List Char := s.data.filter isCritical

/-- `isPunctuationMismatch` from `src/lib/db/schema.ts`.
JavaScript `!dest` on a string is the empty-string test. -/
def isPunctuationMismatch (source dest : String) : Bool :=
  if dest == "" then false
  else getCriticalPunctuation source != getCriticalPunctuation dest

/-- `getAnomalyTypes` from `src/lib/db/schema.ts`.  `dest` is `string | null`,
modelled as `Option String`; JavaScript `!dest` is true for `null` and `""`. -/
def getAnomalyTypes (source : String) (dest : Option String) : List AnomalyType :=
  (match dest with
   | none => [AnomalyType.missing]
   | some d =>
     if d == "" then [AnomalyType.missing]
     else if source == d then [AnomalyType.same]
     else if isPunctuationMismatch source d then [AnomalyType.punct]
     else [])
  ++ (if isDLC source then [AnomalyType.dlc] else [])
  ++ (if isTechnical source then [AnomalyType.tech] else [])

/-- Spec-side reformulation of the critical-punctuation subsequence: the
subsequence of characters of `s` belonging to the set `{<, >, "}`. -/
def specCriticalSubseq (s : String) : List Char :=
  s.data.filter (fun c => decide (c = '<' ∨ c = '>' ∨ c = '"'))

/-
Masking engine, from `src/scripts/mask_strings.ts`.

A glossary row carries `{id, term, category}` (table `glossary` in
`src/lib/db/schema.ts`).  `main` sorts the rows by descending term length,
builds the alternation regex `\bterm1\b|\bterm2\b|...` with flags `gi`
(terms are escaped with `escapeRegExp`, so each alternative matches its term
literally), and builds `termLookup`, a map from the lower-cased term to its
`(id, category)` (later rows overwrite earlier ones on equal keys).

The loader (`mask_strings.ts` line 46, `if (item) rawTerms.push(...)`)
drops empty terms, so every glossary term is non-empty; the matcher below
therefore only reports non-empty matches.
-/

/-- A glossary row: `{id, term, category}`. -/
structure GEntry where
  id : List Char
  term : List Char
  category : List Char
deriving DecidableEq, Repr

/-- Build a `GEntry` from string literals. -/
def mkEntry (id term category : String) : GEntry :=
  ⟨id.data, term.data, category.data⟩

/-- Insert into a list that is sorted by descending term length, after all
entries of greater or equal length (the stable position). -/
def insertDesc (t : GEntry) : List GEntry → List GEntry
  | [] => [t]
  | u :: us =>
    if u.term.length < t.term.length then t :: u :: us
    else u :: insertDesc t us

/-- `sortedTerms` of `mask_strings.ts`: the glossary rows sorted by descending
term length (`.sort((a, b) => b.term.length - a.term.length)`, a stable sort). -/
def sortTerms (g : List GEntry) : List GEntry :=
  g.foldl (fun acc t => insertDesc t acc) []

/-- Case-insensitive literal match of `term` against a prefix of `text`
(the regex `i` flag on an escaped, hence literal, alternative).  Returns the
actually matched characters (original casing) and the remaining text. -/
def matchCI : List Char → List Char → Option (List Char × List Char)
  | [], text => some ([], text)
  | _ :: _, [] => none
  | t :: ts, c :: cs =>
    if t.toLower == c.toLower then
      match matchCI ts cs with
      | some (m, r) => some (c :: m, r)
      | none => none
    else none

/-- `wOpt` is the wordness of an optional character; the boundary of the
string counts as a non-word position for `\b`. -/
def wOpt : Option Char → Bool
  | none => false
  | some c => isWordChar c

/-- The regex `\b` assertion between two adjacent positions: exactly one side
is a word character. -/
def isBoundary (a b : Option Char) : Bool := wOpt a != wOpt b

/-- A whole-word match: non-empty, with `\b` before its first and after its
last character (`prev` is the character just before the match site, `r` the
text after the match). -/
def matchOk (prev : Option Char) (m r : List Char) : Bool :=
  !m.isEmpty && isBoundary prev m.head? && isBoundary m.getLast? r.head?

/-- Try the alternatives of the alternation in pattern order at one position
of the text; the first alternative whose term matches with word boundaries
wins (JavaScript alternation is ordered). -/
def findAt : List GEntry → Option Char → List Char → Option (GEntry × List Char × List Char)
  | [], _, _ => none
  | t :: rest, prev, text =>
    match matchCI t.term text with
    | some (m, r) =>
      if matchOk prev m r then some (t, m, r) else findAt rest prev text
    | none => findAt rest prev text

/-- One chunk of the global-replace decomposition of a text: an unmatched
literal character, or a replaced match (the matched characters together with
the alternative that matched). -/
inductive MChunk
  | lit (c : Char)
  | rep (m : List Char) (t : GEntry)
deriving DecidableEq, Repr

/-- The source characters a chunk stands for. -/
def chunkSrc : MChunk → List Char
  | .lit c => [c]
  | .rep m _ => m

/-- Global left-to-right scan of `String.prototype.replace` with a `g` regex:
at each position try the alternation; on a match consume it (scanning resumes
after the match), otherwise emit one literal character and advance.  `fuel`
bounds the recursion; every step consumes at least one character, so
`fuel = text.length` computes the scan exactly. -/
def maskChunksF : Nat → List GEntry → Option Char → List Char → List MChunk
  | 0, _, _, rest => rest.map MChunk.lit
  | _ + 1, _, _, [] => []
  | n + 1, ts, prev, c :: cs =>
    match findAt ts prev (c :: cs) with
    | some (t, m, r) => MChunk.rep m t :: maskChunksF n ts m.getLast? r
    | none => MChunk.lit c :: maskChunksF n ts (some c) cs

/-- The replace decomposition of a whole text. -/
def maskChunks (ts : List GEntry) (s : List Char) : List MChunk :=
  maskChunksF s.length ts none s

/-- The placeholder `[Category_Id]` of a glossary row. -/
def placeholderOf (t : GEntry) : List Char :=
  '[' :: (t.category ++ '_' :: (t.id ++ [']']))

/-- `termLookup.get(key)`: the map is populated over the sorted rows in order
with `set`, so on duplicate keys the last row wins. -/
def lookupLower (ts : List GEntry) (key : List Char) : Option GEntry :=
  ts.reverse.find? (fun t => lowerStr t.term == key)

/-- The replacement callback of the masking step: look the matched text up by
its lower-casing; emit `[Category_Id]` on a hit and the matched text itself on
a miss. -/
def renderChunk (ts : List GEntry) : MChunk → List Char
  | .lit c => [c]
  | .rep m _ =>
    match lookupLower ts (lowerStr m) with
    | some u => placeholderOf u
    | none => m

/-- `source.replace(pattern, cb)` over an already sorted alternation list. -/
def maskList (ts : List GEntry) (s : List Char) : List Char :=
  (maskChunks ts s).flatMap (renderChunk ts)

/-- Masking a text with a glossary: sort by descending term length, then
global-replace. -/
def maskChars (g : List GEntry) (s : List Char) : List Char :=
  maskList (sortTerms g) s

/-- String-level wrapper of the masking step. -/
def maskText (g : List GEntry) (s : String) : String :=
  ⟨maskChars g s.data⟩

/-
Per-record processing of `main` in `mask_strings.ts` (lines 143-176):
auto-fill of `dest` when the whole source is a glossary term, masking of
`source` into `maskedSource`, and the conditional update row.
-/

/-- A `dialog_strings` row as the masking step sees it. -/
structure DialogRecord where
  id : Nat
  source : Option String
  dest : Option String
  maskedSource : Option String
deriving DecidableEq, Repr

/-- An element of the `updates` array of `mask_strings.ts`. -/
structure UpdateRow where
  id : Nat
  dest : Option String
  maskedSource : String
deriving DecidableEq, Repr

/-- The loop body of `main` for one record (`mask_strings.ts` lines 143-176):
skip records with falsy `source`; auto-fill `dest := source` when the
lower-cased source is in `termSet`; recompute the mask and compare with the
stored `maskedSource`; push an update row if anything changed. -/
def processRecord (g : List GEntry) (r : DialogRecord) : Option UpdateRow :=
  match r.source with
  | none => none
  | some src =>
    if src = "" then none
    else
      let inSet : Bool := g.any (fun t => lowerStr t.term == lowerStr src.data)
      let fill : Bool := inSet && r.dest != some src
      let dest1 : Option String := if fill then some src else r.dest
      let newMasked : String := maskText g src
      let upd2 : Bool := r.maskedSource != some newMasked
      let masked : String := if upd2 then newMasked else src
      if fill || upd2 then some ⟨r.id, dest1, masked⟩ else none

/-- The record state after the masking step commits its update (the batch
update writes `dest` and `maskedSource` of the pushed row). -/
def finalRecord (g : List GEntry) (r : DialogRecord) : DialogRecord :=
  match processRecord g r with
  | none => r
  | some u => { r with dest := u.dest, maskedSource := some u.maskedSource }

/-
Unmasking, from `src/unnamed/part_000`: `loadGlossaryCache` builds a map
`"[" + category + "_" + id + "]" -> term` over the glossary rows, and
`unmaskText` global-replaces the regex `/\[([A-Za-z]+)_([a-z0-9]+)\]/g`,
substituting the cached term when the full bracketed token is a key of the
cache and keeping the token verbatim otherwise.

The two character classes of the regex are disjoint from `_` and `]`, so the
greedy quantifiers never backtrack: after a `[` the match is forced to be the
maximal alpha run, a `_`, the maximal lower-alphanumeric run, and a `]`.
-/

/-- The id character class `[a-z0-9]` of the placeholder grammar. -/
def isIdChar (c : Char) : Bool := c.isLower || c.isDigit

/-- Parse the placeholder grammar right after a `[`: one or more letters, `_`,
one or more of `[a-z0-9]`, `]`.  Returns the full bracketed token (brackets
included) and the remaining text, or `none` when the grammar does not match
at this position. -/
def parsePH (cs : List Char) : Option (List Char × List Char) :=
  let L := cs.takeWhile Char.isAlpha
  let r1 := cs.dropWhile Char.isAlpha
  if L.isEmpty then none
  else
    match r1 with
    | '_' :: r2 =>
      let I := r2.takeWhile isIdChar
      let r3 := r2.dropWhile isIdChar
      if I.isEmpty then none
      else
        match r3 with
        | ']' :: r4 => some ('[' :: (L ++ '_' :: (I ++ [']'])), r4)
        | _ => none
    | _ => none

/-- `cache.get(key)` for the glossary cache, a `Map` populated by `set` in row
order (later rows overwrite earlier ones on equal keys). -/
def cacheGet (cache : List (List Char × List Char)) (key : List Char) :
    Option (List Char) :=
  (cache.reverse.find? (fun p => p.1 == key)).map (fun p => p.2)

/-- `loadGlossaryCache`: one cache entry `[Category_Id] -> term` per glossary
row. -/
def buildCache (g : List GEntry) : List (List Char × List Char) :=
  g.map (fun t => (placeholderOf t, t.term))

/-- The JavaScript expression `original || match` of the unmask callback:
`original` is `cache.get(match)` (`string | undefined`), and both `undefined`
and the empty string are falsy, so an empty cached term yields the matched
token verbatim, exactly like a missing key. -/
def jsOr : Option (List Char) → List Char → List Char
  | none, m => m
  | some t, m => if t.isEmpty then m else t

/-- The global replace of `unmaskText`: scan left to right; at a `[` try the
placeholder grammar; on a match emit `original || match` (the cached term
when present and non-empty, the token itself otherwise) and resume after the
token; otherwise emit the character.  `fuel = text.length` computes the scan
exactly (each step consumes at least one character). -/
def unmaskF (cache : List (List Char × List Char)) : Nat → List Char → List Char
  | 0, rest => rest
  | _ + 1, [] => []
  | n + 1, c :: cs =>
    if c == '[' then
      match parsePH cs with
      | some (tok, rest) => jsOr (cacheGet cache tok) tok ++ unmaskF cache n rest
      | none => c :: unmaskF cache n cs
    else c :: unmaskF cache n cs

/-- `unmaskText(text, cache)` on character lists. -/
def unmaskChars (cache : List (List Char × List Char)) (s : List Char) : List Char :=
  unmaskF cache s.length s

/-- `unmaskText(text, cache)` from `src/unnamed/part_000`. -/
def unmaskText (text : String) (cache : List (List Char × List Char)) : String :=
  ⟨unmaskChars cache text.data⟩

/-- `containsPH s` holds iff some substring of `s` matches the bracketed
placeholder grammar (every such substring starts at a `[` where `parsePH`
succeeds). -/
def containsPH : List Char → Bool
  | [] => false
  | c :: cs => (c == '[' && (parsePH cs).isSome) || containsPH cs

/-- Bracket discipline for a text: every `[` opens a well-formed placeholder
token and `]` occurs only inside such tokens (no malformed partial
placeholders).  `fuel = text.length` computes the scan exactly. -/
def wellFormedF : Nat → List Char → Bool
  | 0, s => s.isEmpty
  | _ + 1, [] => true
  | n + 1, c :: cs =>
    if c == '[' then
      match parsePH cs with
      | some (_, rest) => wellFormedF n rest
      | none => false
    else c != ']' && wellFormedF n cs

/-- A text with no malformed partial placeholders. -/
def wellFormedPH (s : List Char) : Bool := wellFormedF s.length s

/-- Does entry `u` match at this position of the text, as a whole word? -/
def matchesAt (u : GEntry) (prev : Option Char) (text : List Char) : Bool :=
  match matchCI u.term text with
  | some (m, r) => matchOk prev m r
  | none => false

/-- A two-entry glossary where one term is a prefix of the other, with
`Skyrim` listed first. -/
def gLongest : List GEntry :=
  [mkEntry "a1" "Skyrim" "Location", mkEntry "b2" "Skyrim Hold" "Location"]

/-- A one-entry glossary with the term `Whiterun`. -/
def gWhiterun : List GEntry := [mkEntry "w1" "Whiterun" "Location"]

/-- A record whose whole source is a glossary term and whose `dest` differs
from it: the masking step auto-fills `dest`. -/
def recAutoFill : DialogRecord := ⟨1, some "Whiterun", some "", none⟩

/-- A small unmask cache with one Whiterun placeholder. -/
def cacheW : List (List Char × List Char) :=
  [("[Location_w1]".data, "Whiterun".data)]

/-- A cache whose single entry stores the empty string as its term. -/
def cacheEmptyTerm : List (List Char × List Char) :=
  [("[A_a1]".data, ([] : List Char))]

/-- A cache and a well-formed text on which the claim's conditions hold but
unmasking is not idempotent: two adjacent replacements assemble a new
placeholder token. -/
def cacheBad : List (List Char × List Char) :=
  [("[A_a1]".data, "q[Ab_c".data), ("[B_b1]".data, "d1]".data),
   ("[Ab_cd1]".data, "zz".data)]

/-
Lookups and injectivity of placeholders.
-/

/-- Boolean pairwise distinctness of glossary ids (the `glossary` table's
primary key). -/
def distinctIds : List GEntry → Bool
  | [] => true
  | t :: ts => ts.all (fun u => t.id != u.id) && distinctIds ts

/-- Boolean pairwise case-insensitive distinctness of glossary terms (the
spec's "term unique case-insensitively"). -/
def distinctLowerTerms : List GEntry → Bool
  | [] => true
  | t :: ts => ts.all (fun u => lowerStr t.term != lowerStr u.term) &&
      distinctLowerTerms ts

/-
The claim's text construction: concatenating glossary terms (whole words, in
glossary casing) and plain filler words, plus glossary well-formedness.
-/

/-- Well-formedness of a glossary row for the placeholder grammar: category
matching `[A-Za-z]+`, id matching `[a-z0-9]+`, and a non-empty, bracket-free
term (the loader drops empty terms; terms with brackets would collide with
placeholder syntax, a precondition the spec assumes). -/
def entryWF (t : GEntry) : Bool :=
  !t.category.isEmpty && t.category.all (fun c => c.isAlpha) &&
  !t.id.isEmpty && t.id.all isIdChar &&
  !t.term.isEmpty && !t.term.contains '[' && !t.term.contains ']'

/-- A segment of a built text: a glossary term (in its glossary casing) or a
filler string. -/
inductive Seg
  | term (t : GEntry)
  | filler (s : List Char)
deriving DecidableEq, Repr

/-- The characters a segment contributes. -/
def segText : Seg → List Char
  | .term t => t.term
  | .filler s => s

/-- The text of a segment list. -/
def renderSegs (l : List Seg) : List Char := l.flatMap segText

/-- The character preceding the next segment: the last character of this
segment, or the previous one if this segment is empty. -/
def prevAfter (s : List Char) (prev : Option Char) : Option Char :=
  match s.getLast? with
  | some c => some c
  | none => prev

/-- The maximal word-character runs of a string (`fuel = length` computes the
scan exactly). -/
def wordsOfF : Nat → List Char → List (List Char)
  | 0, _ => []
  | _ + 1, [] => []
  | n + 1, c :: cs =>
    if isWordChar c then
      (c :: cs.takeWhile isWordChar) :: wordsOfF n (cs.dropWhile isWordChar)
    else wordsOfF n cs

/-- The words of a string. -/
def wordsOf (s : List Char) : List (List Char) := wordsOfF s.length s

/-- A valid filler: no bracket characters, and none of its words matches a
glossary term (matching is the mask's case-insensitive matching). -/
def fillerOk (g : List GEntry) (s : List Char) : Bool :=
  !s.contains '[' && !s.contains ']' &&
    (wordsOf s).all (fun w => g.all (fun t => lowerStr w != lowerStr t.term))

/-- The claim's construction: term segments are glossary rows and occur as
whole words (a word boundary on each side), fillers are valid fillers. -/
def builtOk (g : List GEntry) : Option Char → List Seg → Bool
  | _, [] => true
  | prev, .term t :: rest =>
    g.contains t && isBoundary prev t.term.head? &&
      isBoundary t.term.getLast? (renderSegs rest).head? &&
      builtOk g (prevAfter t.term prev) rest
  | prev, .filler s :: rest => fillerOk g s && builtOk g (prevAfter s prev) rest

/-- A text built purely by concatenating glossary terms (as whole words, in
glossary casing) and plain filler words. -/
def BuiltFrom (g : List GEntry) (text : List Char) : Prop :=
  ∃ segs : List Seg, builtOk g none segs = true ∧ renderSegs segs = text

/-- Exact-casing condition on a replace decomposition: every replaced span is
verbatim the glossary term of the alternative that matched. -/
def repExact : MChunk → Bool
  | .lit _ => true
  | .rep m t => m == t.term

/-- Membership in one of the conditional one-element tag lists appended by
`getAnomalyTypes`. -/
theorem mem_flag_list {a b : AnomalyType} {c : Bool} :
    a ∈ (if c then [b] else ([] : List AnomalyType)) ↔ c = true ∧ a = b := by
  split <;> simp_all

/-- Claim C3: `getAnomalyTypes` contains MISSING iff `dest` is null or empty;
it contains SAME iff `dest` is non-empty and equals `source`; MISSING and SAME
never co-occur; and PUNCTUATION occurs only when `dest` is non-empty and
differs from `source`. -/
theorem getAnomalyTypes_missing_same_punct (s : String) (d : Option String) :
    (AnomalyType.missing ∈ getAnomalyTypes s d ↔ d = none ∨ d = some "") ∧
    (AnomalyType.same ∈ getAnomalyTypes s d ↔ ∃ x, d = some x ∧ x ≠ "" ∧ x = s) ∧
    ¬(AnomalyType.missing ∈ getAnomalyTypes s d ∧
      AnomalyType.same ∈ getAnomalyTypes s d) ∧
    (AnomalyType.punct ∈ getAnomalyTypes s d → ∃ x, d = some x ∧ x ≠ "" ∧ x ≠ s) := by
  rcases d with _ | x
  · simp [getAnomalyTypes, mem_flag_list]
  · by_cases hx : x = ""
    · simp [getAnomalyTypes, mem_flag_list, hx]
    · by_cases hs : s = x
      · simp [getAnomalyTypes, mem_flag_list, beq_iff_eq, hx, hs]
      · have hxs : ¬x = s := fun h => hs h.symm
        by_cases hp : isPunctuationMismatch s x = true <;>
          simp [getAnomalyTypes, mem_flag_list, beq_iff_eq, hx, hs, hxs, hp]

/-- Claim C3 witness: concrete classification of an untranslated passthrough. -/
theorem getAnomalyTypes_missing_same_punct_w :
    AnomalyType.same ∈ getAnomalyTypes "Hello" (some "Hello") ∧
    AnomalyType.missing ∉ getAnomalyTypes "Hello" (some "Hello") := by
  have h := getAnomalyTypes_missing_same_punct "Hello" (some "Hello")
  refine ⟨h.2.1.mpr ⟨"Hello", rfl, by decide, rfl⟩, fun hm => ?_⟩
  rcases h.1.mp hm with h' | h' <;> simp at h'

/-- Claim C7: `isTechnical` is false on text containing a space, and otherwise
true iff the text has an upper-case letter and (a digit, or an underscore, or
more than one upper-case letter). -/
theorem isTechnical_spec (text : String) :
    isTechnical text = true ↔
      (¬ ' ' ∈ text.data ∧ (∃ c ∈ text.data, c.isUpper = true) ∧
        ((∃ c ∈ text.data, c.isDigit = true) ∨ '_' ∈ text.data ∨
          1 < (text.data.filter Char.isUpper).length)) := by
  by_cases hsp : (' ' ∈ text.data)
  · have h1 : text.data.any (· == ' ') = true := by simpa using hsp
    simp [isTechnical, h1, hsp]
  · have h1 : text.data.any (· == ' ') = false := by
      simp only [List.any_eq_false, beq_iff_eq]
      exact fun x hx he => hsp (he ▸ hx)
    by_cases hu : ∃ c ∈ text.data, c.isUpper = true
    · have h2 : text.data.any Char.isUpper = true :=
        List.any_eq_true.mpr (by simpa using hu)
      simp [isTechnical, h1, h2, hsp, hu, or_assoc, List.any_eq_true]
    · have h2 : text.data.any Char.isUpper = false := by
        rcases h : text.data.any Char.isUpper with _ | _
        · rfl
        · exact absurd (by simpa using List.any_eq_true.mp h) hu
      simp [isTechnical, h1, h2, hsp, hu]

/-- Claim C7 witness: the spec's concrete examples. -/
theorem isTechnical_spec_w :
    isTechnical "FemaleHeadWoodElfVampire" = true ∧
    isTechnical "Female Head Wood Elf Vampire" = false := by
  constructor
  · exact (isTechnical_spec "FemaleHeadWoodElfVampire").mpr
      ⟨by decide, ⟨'F', by decide, by decide⟩, Or.inr (Or.inr (by decide))⟩
  · by_contra h
    simp only [Bool.not_eq_false] at h
    exact absurd ((isTechnical_spec "Female Head Wood Elf Vampire").mp h).1
      (by decide)

/-- Claim C8: for non-empty `dest`, `isPunctuationMismatch` is true iff the
subsequences of `<`, `>`, `"` characters of `source` and `dest` differ; it is
false for empty `dest`. -/
theorem isPunctuationMismatch_spec (s d : String) :
    (d ≠ "" → (isPunctuationMismatch s d = true ↔
      specCriticalSubseq s ≠ specCriticalSubseq d)) ∧
    isPunctuationMismatch s "" = false := by
  have hfilter : ∀ t : String, specCriticalSubseq t = getCriticalPunctuation t := by
    intro t
    apply List.filter_congr
    intro c _
    by_cases h1 : c = '<' <;> by_cases h2 : c = '>' <;> by_cases h3 : c = '"' <;>
      simp [isCritical, h1, h2, h3]
  constructor
  · intro hd
    rw [hfilter, hfilter]
    simp [isPunctuationMismatch, hd]
  · simp [isPunctuationMismatch]

/-- Claim C8 witness: lost angle brackets are detected. -/
theorem isPunctuationMismatch_spec_w :
    isPunctuationMismatch "He said <Tag>" "Il a dit Tag" = true :=
  ((isPunctuationMismatch_spec "He said <Tag>" "Il a dit Tag").1
    (by decide)).mpr (by decide)

/-- Characterization of the `/DLC\d+/i` scan. -/
theorem dlcTest_iff (s : List Char) :
    dlcTest s = true ↔ ∃ pre a b c k post, s = pre ++ [a, b, c, k] ++ post ∧
      a.toLower = 'd' ∧ b.toLower = 'l' ∧ c.toLower = 'c' ∧ k.isDigit = true := by
  induction s with
  | nil =>
    constructor
    · intro h
      simp [dlcTest] at h
    · rintro ⟨pre, a, b, c, k, post, h, -⟩
      simp at h
  | cons c0 cs ih =>
    constructor
    · intro h
      simp only [dlcTest, Bool.or_eq_true] at h
      rcases h with h | h
      · rcases cs with _ | ⟨l, cs2⟩
        · simp at h
        rcases cs2 with _ | ⟨c2, cs3⟩
        · simp at h
        rcases cs3 with _ | ⟨k, rest⟩
        · simp at h
        simp only [Bool.and_eq_true, beq_iff_eq] at h
        exact ⟨[], c0, l, c2, k, rest, rfl, h.1.1.1, h.1.1.2, h.1.2, h.2⟩
      · rcases ih.mp h with ⟨pre, a, b, c, k, post, hcs, ha, hb, hc, hk⟩
        exact ⟨c0 :: pre, a, b, c, k, post, by simp [hcs], ha, hb, hc, hk⟩
    · rintro ⟨pre, a, b, c, k, post, hs, ha, hb, hc, hk⟩
      simp only [dlcTest, Bool.or_eq_true]
      rcases pre with _ | ⟨p, pre'⟩
      · simp only [List.nil_append, List.cons_append] at hs
        injection hs with h1 h2
        subst h1
        subst h2
        left
        simp [ha, hb, hc, hk]
      · simp only [List.cons_append] at hs
        injection hs with h1 h2
        subst h2
        right
        exact ih.mpr ⟨pre', a, b, c, k, post, by simp, ha, hb, hc, hk⟩

/-- Characterization of `startsWith "DLC"`. -/
theorem listPrefix_dlc_iff (s : List Char) :
    listPrefix "DLC".data s = true ↔ ∃ rest, s = 'D' :: 'L' :: 'C' :: rest := by
  have hD : "DLC".data = ['D', 'L', 'C'] := rfl
  rw [hD]
  constructor
  · intro h
    rcases s with _ | ⟨c1, s1⟩
    · simp [listPrefix] at h
    rcases s1 with _ | ⟨c2, s2⟩
    · simp [listPrefix] at h
    rcases s2 with _ | ⟨c3, rest⟩
    · simp [listPrefix] at h
    simp only [listPrefix, Bool.and_eq_true, beq_iff_eq] at h
    exact ⟨rest, by simp [← h.1, ← h.2.1, ← h.2.2.1]⟩
  · rintro ⟨rest, rfl⟩
    simp [listPrefix]

/-- Claim C9: `isDLC` is true iff the text contains `DLC` (case-insensitively)
immediately followed by a digit, or starts with the literal prefix `DLC`; in
`getAnomalyTypes` the DLC tag depends on `source` alone, whatever `dest` is. -/
theorem isDLC_spec :
    (∀ text : String, isDLC text = true ↔
      ((∃ pre a b c k post, text.data = pre ++ [a, b, c, k] ++ post ∧
          a.toLower = 'd' ∧ b.toLower = 'l' ∧ c.toLower = 'c' ∧ k.isDigit = true) ∨
        (∃ rest, text.data = 'D' :: 'L' :: 'C' :: rest))) ∧
    (∀ (s : String) (d : Option String),
      AnomalyType.dlc ∈ getAnomalyTypes s d ↔ isDLC s = true) := by
  constructor
  · intro text
    rw [isDLC, Bool.or_eq_true, dlcTest_iff, listPrefix_dlc_iff]
  · intro s d
    rcases d with _ | x
    · simp [getAnomalyTypes, mem_flag_list]
    · by_cases hx : x = ""
      · simp [getAnomalyTypes, mem_flag_list, hx]
      · by_cases hs : s = x
        · simp [getAnomalyTypes, mem_flag_list, beq_iff_eq, hx, hs]
        · by_cases hp : isPunctuationMismatch s x = true <;>
            simp [getAnomalyTypes, mem_flag_list, beq_iff_eq, hx, hs, hp]

/-- Claim C9 witness: the spec's concrete examples, plus dest-independence. -/
theorem isDLC_spec_w :
    isDLC "DLC01Quest" = true ∧
    (AnomalyType.dlc ∈ getAnomalyTypes "DLC01Quest" none ↔
      AnomalyType.dlc ∈ getAnomalyTypes "DLC01Quest" (some "x")) := by
  refine ⟨isDLC_spec.1 "DLC01Quest" |>.mpr (Or.inr ⟨"01Quest".data, rfl⟩), ?_⟩
  rw [isDLC_spec.2 "DLC01Quest" none, isDLC_spec.2 "DLC01Quest" (some "x")]

/-
Properties of the descending-length sort.
-/

/-- Membership through `insertDesc`. -/
theorem insertDesc_mem {t x : GEntry} {l : List GEntry} :
    x ∈ insertDesc t l ↔ x = t ∨ x ∈ l := by
  induction l with
  | nil => simp [insertDesc]
  | cons u us ih =>
    rw [insertDesc]
    split
    · simp
    · simp [ih]
      tauto

/-- `insertDesc` preserves descending-length sortedness. -/
theorem insertDesc_sorted {t : GEntry} {l : List GEntry}
    (h : l.Pairwise (fun a b => b.term.length ≤ a.term.length)) :
    (insertDesc t l).Pairwise (fun a b => b.term.length ≤ a.term.length) := by
  induction l with
  | nil => simp [insertDesc]
  | cons u us ih =>
    rcases List.pairwise_cons.mp h with ⟨hu, hus⟩
    rw [insertDesc]
    split
    · rename_i hlt
      refine List.pairwise_cons.mpr ⟨?_, h⟩
      intro x hx
      rcases List.mem_cons.mp hx with rfl | hx
      · exact Nat.le_of_lt hlt
      · exact Nat.le_trans (hu x hx) (Nat.le_of_lt hlt)
    · rename_i hnlt
      refine List.pairwise_cons.mpr ⟨?_, ih hus⟩
      intro x hx
      rcases insertDesc_mem.mp hx with rfl | hx
      · exact Nat.le_of_not_lt hnlt
      · exact hu x hx

/-- The sort of `mask_strings.ts` produces a descending-length list. -/
theorem sortTerms_sorted (g : List GEntry) :
    (sortTerms g).Pairwise (fun a b => b.term.length ≤ a.term.length) := by
  suffices h : ∀ acc : List GEntry,
      acc.Pairwise (fun a b => b.term.length ≤ a.term.length) →
      (g.foldl (fun a t => insertDesc t a) acc).Pairwise
        (fun a b => b.term.length ≤ a.term.length) by
    exact h [] (by simp)
  induction g with
  | nil => exact fun acc h => h
  | cons t ts ih => exact fun acc h => ih _ (insertDesc_sorted h)

/-- `insertDesc` is a permutation of pushing in front. -/
theorem insertDesc_perm (t : GEntry) (l : List GEntry) :
    (insertDesc t l).Perm (t :: l) := by
  induction l with
  | nil => simp [insertDesc]
  | cons u us ih =>
    rw [insertDesc]
    split
    · exact List.Perm.refl _
    · exact ((ih.cons u).trans (List.Perm.swap t u us))

/-- The sort of `mask_strings.ts` permutes the glossary. -/
theorem sortTerms_perm (g : List GEntry) : (sortTerms g).Perm g := by
  suffices h : ∀ acc : List GEntry,
      (g.foldl (fun a t => insertDesc t a) acc).Perm (acc ++ g) by
    simpa using h []
  induction g with
  | nil => simp
  | cons t ts ih =>
    intro acc
    have h1 := ih (insertDesc t acc)
    have h2 : (insertDesc t acc ++ ts).Perm (t :: (acc ++ ts)) :=
      (insertDesc_perm t acc).append_right ts
    have h3 : (acc ++ t :: ts).Perm (t :: (acc ++ ts)) := List.perm_middle
    exact (h1.trans h2).trans h3.symm

/-
Longest-match priority and word-boundary facts about `findAt`.
-/

/-- On a descending-length alternation list, the alternative `findAt` picks is
at least as long as every alternative that matches at the position. -/
theorem findAt_longest {ts : List GEntry} {prev : Option Char} {text : List Char}
    {t : GEntry} {m r : List Char}
    (hsort : ts.Pairwise (fun a b => b.term.length ≤ a.term.length))
    (hfind : findAt ts prev text = some (t, m, r)) :
    ∀ u ∈ ts, matchesAt u prev text = true → u.term.length ≤ t.term.length := by
  induction ts with
  | nil => cases hfind
  | cons v rest ih =>
    rcases List.pairwise_cons.mp hsort with ⟨hv, hrest⟩
    intro u hu hmu
    rw [findAt] at hfind
    rcases hm : matchCI v.term text with _ | ⟨mv, rv⟩
    · rw [hm] at hfind
      simp only at hfind
      rcases List.mem_cons.mp hu with rfl | hu
      · rw [matchesAt, hm] at hmu
        cases hmu
      · exact ih hrest hfind u hu hmu
    · rw [hm] at hfind
      simp only at hfind
      by_cases hok : matchOk prev mv rv = true
      · rw [if_pos hok] at hfind
        injection hfind with hfind
        cases hfind
        rcases List.mem_cons.mp hu with rfl | hu
        · exact Nat.le_refl _
        · exact hv u hu
      · rw [if_neg hok] at hfind
        rcases List.mem_cons.mp hu with rfl | hu
        · rw [matchesAt, hm] at hmu
          exact absurd hmu hok
        · exact ih hrest hfind u hu hmu

/-- Every match `findAt` reports is non-empty and flanked by `\b` word
boundaries on both sides. -/
theorem findAt_boundaries {ts : List GEntry} {prev : Option Char} {text : List Char}
    {t : GEntry} {m r : List Char}
    (hfind : findAt ts prev text = some (t, m, r)) :
    m ≠ [] ∧ isBoundary prev m.head? = true ∧ isBoundary m.getLast? r.head? = true := by
  induction ts with
  | nil => cases hfind
  | cons v rest ih =>
    rw [findAt] at hfind
    rcases hm : matchCI v.term text with _ | ⟨mv, rv⟩
    · rw [hm] at hfind
      simp only at hfind
      exact ih hfind
    · rw [hm] at hfind
      simp only at hfind
      by_cases hok : matchOk prev mv rv = true
      · rw [if_pos hok] at hfind
        injection hfind with hfind
        cases hfind
        have h := hok
        rw [matchOk] at h
        simp only [Bool.and_eq_true, Bool.not_eq_true'] at h
        refine ⟨?_, h.1.2, h.2⟩
        intro hnil
        rw [hnil] at h
        simp at h
      · rw [if_neg hok] at hfind
        exact ih hfind

/-- Claim C2: the mask pattern is the glossary sorted by descending term
length; on such a list the alternative found at a position is at least as long
as any alternative matching there; and masking `"I visited Skyrim Hold today"`
with glossary terms `Skyrim` and `Skyrim Hold` replaces the full longer span
with a single placeholder, leaving the shorter term unmasked. -/
theorem mask_longest_match :
    (∀ g : List GEntry,
      (sortTerms g).Pairwise (fun a b => b.term.length ≤ a.term.length)) ∧
    (∀ (ts : List GEntry) (prev : Option Char) (text : List Char)
        (t : GEntry) (m r : List Char),
      ts.Pairwise (fun a b => b.term.length ≤ a.term.length) →
      findAt ts prev text = some (t, m, r) →
      ∀ u ∈ ts, matchesAt u prev text = true → u.term.length ≤ t.term.length) ∧
    maskText gLongest "I visited Skyrim Hold today" = "I visited [Location_b2] today" :=
  ⟨sortTerms_sorted,
   fun _ _ _ _ _ _ hsort hfind => findAt_longest hsort hfind,
   by decide⟩

/-- Claim C2 witness: at the `Skyrim Hold` site the shorter matching term
`Skyrim` loses against the found longer alternative. -/
theorem mask_longest_match_w :
    (mkEntry "a1" "Skyrim" "Location").term.length ≤
      (mkEntry "b2" "Skyrim Hold" "Location").term.length :=
  mask_longest_match.2.1 (sortTerms gLongest) (some ' ') "Skyrim Hold today".data
    (mkEntry "b2" "Skyrim Hold" "Location") "Skyrim Hold".data " today".data
    (by decide) (by decide)
    (mkEntry "a1" "Skyrim" "Location") (by decide) (by decide)

/-- Claim C5: every match the alternation reports is non-empty and has `\b`
word boundaries on both sides, so only whole-word occurrences are replaced;
`"Whiterunners"` is left unchanged by the glossary term `Whiterun`, and
matching is case-insensitive and replaces all non-overlapping occurrences
left to right. -/
theorem mask_word_boundary :
    (∀ (ts : List GEntry) (prev : Option Char) (text : List Char)
        (t : GEntry) (m r : List Char),
      findAt ts prev text = some (t, m, r) →
      m ≠ [] ∧ isBoundary prev m.head? = true ∧ isBoundary m.getLast? r.head? = true) ∧
    maskText gWhiterun "Whiterunners" = "Whiterunners" ∧
    maskText gWhiterun "whiterun to WHITERUN" = "[Location_w1] to [Location_w1]" :=
  ⟨fun _ _ _ _ _ _ hfind => findAt_boundaries hfind, by decide, by decide⟩

/-- Claim C5 witness: the boundary facts at a concrete whole-word match. -/
theorem mask_word_boundary_w :
    "Whiterun".data ≠ [] ∧
    isBoundary (some ' ') "Whiterun".data.head? = true ∧
    isBoundary "Whiterun".data.getLast? " now".data.head? = true :=
  mask_word_boundary.1 (sortTerms gWhiterun) (some ' ') "Whiterun now".data
    (mkEntry "w1" "Whiterun" "Location") "Whiterun".data " now".data (by decide)

/-- Claim C4 counterexample: the masking step changes the `dest` field of a
record whose source is a glossary term (the auto-fill branch of
`mask_strings.ts`, lines 150-156), so `dest` is not left unchanged. -/
theorem maskStep_writes_dest_counterexample :
    (finalRecord gWhiterun recAutoFill).dest ≠ recAutoFill.dest := by decide

/-- Claim C4 (amended): the masking step reads `source` and writes
`maskedSource`; it leaves `dest` unchanged for every record whose lower-cased
source is not a glossary term (when it is one, the auto-fill branch may write
`dest := source`). -/
theorem maskStep_dest_unchanged (g : List GEntry) (r : DialogRecord)
    (h : ∀ src : String, r.source = some src →
      g.all (fun t => lowerStr t.term != lowerStr src.data) = true) :
    (finalRecord g r).dest = r.dest := by
  have hin : ∀ src : String, r.source = some src →
      (g.any (fun t => lowerStr t.term == lowerStr src.data)) = false := by
    intro src hs
    have hall := List.all_eq_true.mp (h src hs)
    rcases hq : g.any (fun t => lowerStr t.term == lowerStr src.data) with _ | _
    · rfl
    · exfalso
      rcases List.any_eq_true.mp hq with ⟨t, ht, hteq⟩
      have hne := bne_iff_ne.mp (hall t ht)
      exact hne (beq_iff_eq.mp hteq)
  rw [finalRecord]
  rcases hres : processRecord g r with _ | u
  · rfl
  · have hud : u.dest = r.dest := by
      rw [processRecord] at hres
      rcases hs : r.source with _ | src
      · rw [hs] at hres
        cases hres
      · rw [hs] at hres
        simp only at hres
        by_cases he : src = ""
        · rw [if_pos he] at hres
          cases hres
        · rw [if_neg he] at hres
          simp only [hin src hs, Bool.false_and, Bool.false_or] at hres
          split at hres
          · injection hres with hres
            cases hres
            rfl
          · cases hres
    exact hud

/-- Claim C4 (amended) witness: a record whose source is no glossary term
keeps its `dest`. -/
theorem maskStep_dest_unchanged_w :
    (finalRecord gWhiterun ⟨2, some "Hello there", some "", none⟩).dest = some "" :=
  maskStep_dest_unchanged gWhiterun ⟨2, some "Hello there", some "", none⟩
    (fun src hs => by cases hs; decide)

/-
Support lemmas about `takeWhile`/`dropWhile` and the placeholder parse.
-/

/-- `takeWhile`/`dropWhile` on a list that starts with an all-`p` prefix and
then a failing character. -/
theorem takeWhile_append_stop {p : Char → Bool} {L : List Char} {d : Char}
    {R : List Char} (hL : ∀ c ∈ L, p c = true) (hd : p d = false) :
    (L ++ d :: R).takeWhile p = L ∧ (L ++ d :: R).dropWhile p = d :: R := by
  induction L with
  | nil => simp [List.takeWhile, List.dropWhile, hd]
  | cons c L' ih =>
    have hc : p c = true := hL c (by simp)
    have ih' := ih (fun x hx => hL x (by simp [hx]))
    simp [List.takeWhile, List.dropWhile, hc, ih'.1, ih'.2]

/-- `takeWhile`/`dropWhile` on an all-`p` list. -/
theorem takeWhile_all {p : Char → Bool} {L : List Char}
    (hL : ∀ c ∈ L, p c = true) :
    L.takeWhile p = L ∧ L.dropWhile p = [] := by
  induction L with
  | nil => simp
  | cons c L' ih =>
    have hc : p c = true := hL c (by simp)
    have ih' := ih (fun x hx => hL x (by simp [hx]))
    simp [List.takeWhile, List.dropWhile, hc, ih'.1, ih'.2]

/-- Successful parse of the placeholder grammar on an explicitly shaped text:
the token is forced and parsing never reads past its closing bracket. -/
theorem parsePH_exact {L I Z : List Char}
    (hL : L ≠ []) (hLa : ∀ c ∈ L, c.isAlpha = true)
    (hI : I ≠ []) (hIa : ∀ c ∈ I, isIdChar c = true) :
    parsePH (L ++ '_' :: (I ++ ']' :: Z)) =
      some ('[' :: (L ++ '_' :: (I ++ [']'])), Z) := by
  have h1 := takeWhile_append_stop (p := Char.isAlpha) (L := L)
    (d := '_') (R := I ++ ']' :: Z) hLa (by decide)
  have h2 := takeWhile_append_stop (p := isIdChar) (L := I)
    (d := ']') (R := Z) hIa (by decide)
  rw [parsePH]
  simp only [h1.1, h1.2, h2.1, h2.2]
  simp [hL, hI, List.isEmpty_iff]

/-- Inversion of a successful placeholder parse: the input decomposes into the
grammar's shape and the token is the full bracketed placeholder. -/
theorem parsePH_some_spec {cs tok rest : List Char}
    (h : parsePH cs = some (tok, rest)) :
    ∃ L I, L ≠ [] ∧ (∀ c ∈ L, c.isAlpha = true) ∧ I ≠ [] ∧
      (∀ c ∈ I, isIdChar c = true) ∧
      tok = '[' :: (L ++ '_' :: (I ++ [']'])) ∧
      cs = L ++ '_' :: (I ++ ']' :: rest) := by
  rw [parsePH] at h
  set L := cs.takeWhile Char.isAlpha with hLdef
  set r1 := cs.dropWhile Char.isAlpha with hr1def
  have hsplit : L ++ r1 = cs := List.takeWhile_append_dropWhile Char.isAlpha cs
  have hLa : ∀ c ∈ L, c.isAlpha = true := fun c hc => List.mem_takeWhile_imp hc
  by_cases hLe : L.isEmpty
  · rw [if_pos hLe] at h
    cases h
  · rw [if_neg hLe] at h
    rcases hr1 : r1 with _ | ⟨d, r2⟩
    · rw [hr1] at h
      simp only at h
      cases h
    · rw [hr1] at h
      by_cases hd : d = '_'
      · subst hd
        simp only at h
        set I := r2.takeWhile isIdChar with hIdef
        set r3 := r2.dropWhile isIdChar with hr3def
        have hsplit2 : I ++ r3 = r2 := List.takeWhile_append_dropWhile isIdChar r2
        have hIa : ∀ c ∈ I, isIdChar c = true := fun c hc => List.mem_takeWhile_imp hc
        by_cases hIe : I.isEmpty
        · rw [if_pos hIe] at h
          cases h
        · rw [if_neg hIe] at h
          rcases hr3 : r3 with _ | ⟨e, r4⟩
          · rw [hr3] at h
            simp only at h
            cases h
          · rw [hr3] at h
            by_cases he : e = ']'
            · subst he
              simp only at h
              injection h with h1
              injection h1 with h2 h3
              refine ⟨L, I, fun hc => by simp [hc] at hLe, hLa,
                fun hc => by simp [hc] at hIe, hIa, h2.symm, ?_⟩
              rw [← h3, ← hsplit, hr1, ← hsplit2, hr3]
            · split at h
              · rename_i heq
                injection heq with he' _
                exact absurd he' he
              · cases h
      · split at h
        · rename_i heq
          injection heq with hd' _
          exact absurd hd' hd
        · cases h

/-- A successful parse strictly shrinks the remaining text. -/
theorem parsePH_shrinks {cs tok rest : List Char}
    (h : parsePH cs = some (tok, rest)) : rest.length < cs.length := by
  rcases parsePH_some_spec h with ⟨L, I, hL, -, hI, -, -, hcs⟩
  rw [hcs]
  simp only [List.length_append, List.length_cons]
  omega

/-- Splitting an append at a bracket: if `a ++ '[' :: b = c ++ d` and `c` is
bracket-free, the whole of `c` lies within `a`. -/
theorem no_br_prefix_split : ∀ {c a b d : List Char},
    a ++ '[' :: b = c ++ d → '[' ∉ c → ∃ e, a = c ++ e ∧ d = e ++ '[' :: b := by
  intro c
  induction c with
  | nil => exact fun h _ => ⟨_, rfl, h.symm⟩
  | cons x c' ih =>
    intro a b d h hc
    cases a with
    | nil =>
      exfalso
      simp only [List.nil_append, List.cons_append] at h
      injection h with h1 _
      exact hc (by rw [h1]; simp)
    | cons y a' =>
      simp only [List.cons_append] at h
      injection h with h1 h2
      rcases ih h2 (fun hm => hc (by simp [hm])) with ⟨e, he1, he2⟩
      exact ⟨e, by rw [h1, he1]; simp, he2⟩

/-- A failing placeholder parse keeps failing when text starting with `[` is
appended: a successful parse of the extended text would have to fit entirely
before the appended `[` (no character of a placeholder token is a `[`), making
the original parse succeed as well. -/
theorem parsePH_append_none {cs Y : List Char} (h : parsePH cs = none) :
    parsePH (cs ++ '[' :: Y) = none := by
  rcases hp : parsePH (cs ++ '[' :: Y) with _ | ⟨tok, rest⟩
  · rfl
  · exfalso
    rcases parsePH_some_spec hp with ⟨L, I, hL, hLa, hI, hIa, htok, heq⟩
    have heq' : cs ++ '[' :: Y = (L ++ '_' :: (I ++ [']'])) ++ rest := by
      rw [heq]
      simp
    have hnb : '[' ∉ L ++ '_' :: (I ++ [']']) := by
      intro hmem
      rcases List.mem_append.mp hmem with hmL | hmr
      · exact absurd (hLa '[' hmL) (by decide)
      · rcases List.mem_cons.mp hmr with hbr | hmr2
        · exact absurd hbr (by decide)
        · rcases List.mem_append.mp hmr2 with hmI | hbr2
          · exact absurd (hIa '[' hmI) (by decide)
          · simp at hbr2
    rcases no_br_prefix_split heq' hnb with ⟨e, hcs, -⟩
    have hsome : parsePH cs = some ('[' :: (L ++ '_' :: (I ++ [']'])), e) := by
      rw [hcs]
      have hx := parsePH_exact (Z := e) hL hLa hI hIa
      have hshape : (L ++ '_' :: (I ++ [']'])) ++ e = L ++ '_' :: (I ++ ']' :: e) := by
        simp
      rw [hshape]
      exact hx
    rw [hsome] at h
    cases h

/-
Fuel and equation lemmas for the unmask scan.
-/

/-- The unmask scan result does not depend on the fuel, as long as the fuel
covers the text length. -/
theorem unmaskF_fuel (cache : List (List Char × List Char)) :
    ∀ (n m : Nat) (s : List Char), s.length ≤ n → s.length ≤ m →
      unmaskF cache n s = unmaskF cache m s := by
  intro n
  induction n with
  | zero =>
    intro m s hn _
    have hs : s = [] := List.length_eq_zero.mp (Nat.le_zero.mp hn)
    subst hs
    cases m <;> rfl
  | succ n ih =>
    intro m s hn hm
    cases s with
    | nil => cases m <;> rfl
    | cons c cs =>
      cases m with
      | zero => exact absurd hm (by simp)
      | succ m' =>
        have hn' : cs.length ≤ n := Nat.le_of_succ_le_succ hn
        have hm' : cs.length ≤ m' := Nat.le_of_succ_le_succ hm
        rw [unmaskF, unmaskF]
        by_cases hc : c == '['
        · rw [if_pos hc, if_pos hc]
          rcases hp : parsePH cs with _ | ⟨tok, rest⟩
          · simp only
            rw [ih m' cs hn' hm']
          · simp only
            rw [ih m' rest (Nat.le_trans (Nat.le_of_lt (parsePH_shrinks hp)) hn')
                (Nat.le_trans (Nat.le_of_lt (parsePH_shrinks hp)) hm')]
        · rw [if_neg hc, if_neg hc, ih m' cs hn' hm']

/-- Unmasking an empty text. -/
theorem unmaskChars_nil (cache : List (List Char × List Char)) :
    unmaskChars cache [] = [] := rfl

/-- Unmasking steps over a character that is not `[`. -/
theorem unmaskChars_cons_of_ne (cache : List (List Char × List Char)) {c : Char}
    (cs : List Char) (hc : c ≠ '[') :
    unmaskChars cache (c :: cs) = c :: unmaskChars cache cs := by
  rw [unmaskChars, unmaskChars]
  show unmaskF cache (cs.length + 1) (c :: cs) = c :: unmaskF cache cs.length cs
  rw [unmaskF, if_neg (by simpa using hc)]

/-- Unmasking replaces a parsed placeholder token (`original || match`) and
resumes after it. -/
theorem unmaskChars_cons_some (cache : List (List Char × List Char))
    {cs tok rest : List Char} (hp : parsePH cs = some (tok, rest)) :
    unmaskChars cache ('[' :: cs) =
      jsOr (cacheGet cache tok) tok ++ unmaskChars cache rest := by
  rw [unmaskChars, unmaskChars]
  show unmaskF cache (cs.length + 1) ('[' :: cs) = _
  rw [unmaskF, if_pos (show ('[' == '[') = true from rfl), hp]
  simp only
  rw [unmaskF_fuel cache cs.length rest.length rest
    (Nat.le_of_lt (parsePH_shrinks hp)) (Nat.le_refl _)]

/-- Unmasking keeps a `[` that opens no placeholder token. -/
theorem unmaskChars_cons_none (cache : List (List Char × List Char))
    {cs : List Char} (hp : parsePH cs = none) :
    unmaskChars cache ('[' :: cs) = '[' :: unmaskChars cache cs := by
  rw [unmaskChars, unmaskChars]
  show unmaskF cache (cs.length + 1) ('[' :: cs) = '[' :: unmaskF cache cs.length cs
  rw [unmaskF, if_pos (show ('[' == '[') = true from rfl), hp]

/-- A `[`-free prefix passes through the unmask scan untouched, whatever
follows it. -/
theorem unmask_append_nobr (cache : List (List Char × List Char))
    {pre : List Char} (X : List Char) (hpre : '[' ∉ pre) :
    unmaskChars cache (pre ++ X) = pre ++ unmaskChars cache X := by
  induction pre with
  | nil => simp
  | cons c pre' ih =>
    have hc : c ≠ '[' := fun h => hpre (by simp [h])
    have hpre' : '[' ∉ pre' := fun h => hpre (by simp [h])
    rw [List.cons_append, unmaskChars_cons_of_ne cache _ hc, ih hpre',
      List.cons_append]

/-- The unmask scan consumes a well-formed placeholder token exactly,
emitting `original || match` for it: the cached term on a non-empty hit, the
token verbatim on a miss or an empty hit. -/
theorem unmask_tok (cache : List (List Char × List Char)) {L I : List Char}
    (Z : List Char) (hL : L ≠ []) (hLa : ∀ c ∈ L, c.isAlpha = true)
    (hI : I ≠ []) (hIa : ∀ c ∈ I, isIdChar c = true) :
    unmaskChars cache (('[' :: (L ++ '_' :: (I ++ [']']))) ++ Z) =
      jsOr (cacheGet cache ('[' :: (L ++ '_' :: (I ++ [']']))))
        ('[' :: (L ++ '_' :: (I ++ [']']))) ++ unmaskChars cache Z := by
  have hshape : ('[' :: (L ++ '_' :: (I ++ [']']))) ++ Z =
      '[' :: (L ++ '_' :: (I ++ ']' :: Z)) := by simp
  rw [hshape, unmaskChars_cons_some cache (parsePH_exact hL hLa hI hIa)]

/-- Text with no substring matching the placeholder grammar is returned
unchanged by the unmask scan. -/
theorem unmask_noPH (cache : List (List Char × List Char)) {s : List Char}
    (h : containsPH s = false) : unmaskChars cache s = s := by
  induction s with
  | nil => rfl
  | cons c cs ih =>
    rw [containsPH] at h
    rcases Bool.or_eq_false_iff.mp h with ⟨h1, h2⟩
    by_cases hc : c = '['
    · subst hc
      have hp : parsePH cs = none := by
        rcases hq : parsePH cs with _ | p
        · rfl
        · rw [hq] at h1
          simp at h1
      rw [unmaskChars_cons_none cache hp, ih h2]
    · rw [unmaskChars_cons_of_ne cache _ hc, ih h2]

/-- Unmasking one well-formed placeholder token in context: after a
placeholder-free prefix and before arbitrary text, the token is rewritten to
`original || match` and the scan continues after it. -/
theorem unmask_ctx (cache : List (List Char × List Char))
    (pre L I post : List Char)
    (hpre : containsPH pre = false) (hL : L ≠ [])
    (hLa : ∀ c ∈ L, c.isAlpha = true)
    (hI : I ≠ []) (hIa : ∀ c ∈ I, isIdChar c = true) :
    unmaskChars cache (pre ++ ('[' :: (L ++ '_' :: (I ++ [']']))) ++ post) =
      pre ++ jsOr (cacheGet cache ('[' :: (L ++ '_' :: (I ++ [']']))))
        ('[' :: (L ++ '_' :: (I ++ [']']))) ++ unmaskChars cache post := by
  induction pre with
  | nil =>
    simpa using unmask_tok cache post hL hLa hI hIa
  | cons c pre' ih =>
    rw [containsPH] at hpre
    rcases Bool.or_eq_false_iff.mp hpre with ⟨h1, h2⟩
    simp only [List.cons_append] at ih ⊢
    by_cases hc : c = '['
    · subst hc
      have hp : parsePH pre' = none := by
        rcases hq : parsePH pre' with _ | p
        · rfl
        · rw [hq] at h1
          simp at h1
      have hpn : parsePH (pre' ++ '[' :: ((L ++ '_' :: (I ++ [']'])) ++ post)) = none :=
        parsePH_append_none hp
      have hpn' : parsePH (pre' ++ ('[' :: (L ++ '_' :: (I ++ [']']))) ++ post) = none := by
        simpa using hpn
      rw [unmaskChars_cons_none cache hpn', ih h2]
    · rw [unmaskChars_cons_of_ne cache _ hc, ih h2]

/-- Claim C6 counterexample: the bracketed form `[A_a1]` is a key of the
cache, yet `unmaskText` does not replace the token with the cached term (the
empty string) - the callback `cache.get(match) || match` treats an empty
cached term as falsy and keeps the token verbatim. -/
theorem unmask_failopen_counterexample :
    cacheGet cacheEmptyTerm "[A_a1]".data = some [] ∧
    unmaskChars cacheEmptyTerm "[A_a1]".data = "[A_a1]".data ∧
    unmaskChars cacheEmptyTerm "[A_a1]".data ≠ ([] : List Char) := by decide

/-- Claim C6 (amended): `unmaskText` replaces each placeholder-grammar token
whose full bracketed form maps to a non-empty cached term with that term;
it leaves every such token verbatim when the bracketed form is not a cache
key or maps to the empty string (fail-open: the callback is
`cache.get(match) || match`, and an empty cached term is falsy); and it
returns text with no grammar-matching substring unchanged. -/
theorem unmask_failopen :
    (∀ (cache : List (List Char × List Char)) (pre L I post v : List Char),
      containsPH pre = false → L ≠ [] → (∀ c ∈ L, c.isAlpha = true) →
      I ≠ [] → (∀ c ∈ I, isIdChar c = true) →
      cacheGet cache ('[' :: (L ++ '_' :: (I ++ [']']))) = some v → v ≠ [] →
      unmaskChars cache (pre ++ ('[' :: (L ++ '_' :: (I ++ [']']))) ++ post) =
        pre ++ v ++ unmaskChars cache post) ∧
    (∀ (cache : List (List Char × List Char)) (pre L I post : List Char),
      containsPH pre = false → L ≠ [] → (∀ c ∈ L, c.isAlpha = true) →
      I ≠ [] → (∀ c ∈ I, isIdChar c = true) →
      (cacheGet cache ('[' :: (L ++ '_' :: (I ++ [']']))) = none ∨
        cacheGet cache ('[' :: (L ++ '_' :: (I ++ [']']))) = some []) →
      unmaskChars cache (pre ++ ('[' :: (L ++ '_' :: (I ++ [']']))) ++ post) =
        pre ++ ('[' :: (L ++ '_' :: (I ++ [']']))) ++ unmaskChars cache post) ∧
    (∀ (cache : List (List Char × List Char)) (s : List Char),
      containsPH s = false → unmaskChars cache s = s) := by
  refine ⟨?_, ?_, ?_⟩
  · intro cache pre L I post v hpre hL hLa hI hIa hget hv
    rw [unmask_ctx cache pre L I post hpre hL hLa hI hIa, hget]
    rw [show jsOr (some v) ('[' :: (L ++ '_' :: (I ++ [']']))) = v by
      rw [jsOr, if_neg (by simpa [List.isEmpty_iff] using hv)]]
  · intro cache pre L I post hpre hL hLa hI hIa hget
    rw [unmask_ctx cache pre L I post hpre hL hLa hI hIa]
    rcases hget with hget | hget <;> rw [hget]
    · rfl
    · rfl
  · intro cache s h
    exact unmask_noPH cache h

/-- Claim C6 (amended) witness: a non-empty cache hit in context, a miss left
verbatim, and a no-placeholder text. -/
theorem unmask_failopen_w :
    (unmaskChars cacheW
        ("go to ".data ++ ('[' :: ("Location".data ++ '_' :: ("w1".data ++ [']']))) ++ "!".data) =
      "go to ".data ++ "Whiterun".data ++ unmaskChars cacheW "!".data) ∧
    (unmaskChars cacheW
        ("see ".data ++ ('[' :: ("B".data ++ '_' :: ("b2".data ++ [']']))) ++ ".".data) =
      "see ".data ++ ('[' :: ("B".data ++ '_' :: ("b2".data ++ [']']))) ++
        unmaskChars cacheW ".".data) ∧
    unmaskChars cacheW "no tokens here".data = "no tokens here".data :=
  ⟨unmask_failopen.1 cacheW "go to ".data "Location".data "w1".data "!".data
      "Whiterun".data (by decide) (by decide) (by decide) (by decide) (by decide)
      (by decide) (by decide),
   unmask_failopen.2.1 cacheW "see ".data "B".data "b2".data ".".data
      (by decide) (by decide) (by decide) (by decide) (by decide)
      (Or.inl (by decide)),
   unmask_failopen.2.2 cacheW "no tokens here".data (by decide)⟩

/-
Fuel and equation lemmas for the bracket-discipline scan `wellFormedPH`.
-/

/-- The bracket-discipline scan does not depend on the fuel, as long as the
fuel covers the text length. -/
theorem wellFormedF_fuel :
    ∀ (n m : Nat) (s : List Char), s.length ≤ n → s.length ≤ m →
      wellFormedF n s = wellFormedF m s := by
  intro n
  induction n with
  | zero =>
    intro m s hn _
    have hs : s = [] := List.length_eq_zero.mp (Nat.le_zero.mp hn)
    subst hs
    cases m <;> rfl
  | succ n ih =>
    intro m s hn hm
    cases s with
    | nil => cases m <;> rfl
    | cons c cs =>
      cases m with
      | zero => exact absurd hm (by simp)
      | succ m' =>
        have hn' : cs.length ≤ n := Nat.le_of_succ_le_succ hn
        have hm' : cs.length ≤ m' := Nat.le_of_succ_le_succ hm
        rw [wellFormedF, wellFormedF]
        by_cases hc : c == '['
        · rw [if_pos hc, if_pos hc]
          rcases hp : parsePH cs with _ | ⟨tok, rest⟩
          · simp only
          · simp only
            rw [ih m' rest (Nat.le_trans (Nat.le_of_lt (parsePH_shrinks hp)) hn')
                (Nat.le_trans (Nat.le_of_lt (parsePH_shrinks hp)) hm')]
        · rw [if_neg hc, if_neg hc, ih m' cs hn' hm']

/-- Bracket discipline steps over a character that is not `[`. -/
theorem wellFormedPH_cons_of_ne {c : Char} (cs : List Char) (hc : c ≠ '[') :
    wellFormedPH (c :: cs) = (c != ']' && wellFormedPH cs) := by
  rw [wellFormedPH, wellFormedPH]
  show wellFormedF (cs.length + 1) (c :: cs) = (c != ']' && wellFormedF cs.length cs)
  rw [wellFormedF, if_neg (by simpa using hc)]

/-- Bracket discipline skips a parsed placeholder token. -/
theorem wellFormedPH_cons_some {cs tok rest : List Char}
    (hp : parsePH cs = some (tok, rest)) :
    wellFormedPH ('[' :: cs) = wellFormedPH rest := by
  rw [wellFormedPH, wellFormedPH]
  show wellFormedF (cs.length + 1) ('[' :: cs) = wellFormedF rest.length rest
  rw [wellFormedF, if_pos (show ('[' == '[') = true from rfl), hp]
  simp only
  rw [wellFormedF_fuel cs.length rest.length rest
    (Nat.le_of_lt (parsePH_shrinks hp)) (Nat.le_refl _)]

/-- A `[` that opens no placeholder token violates bracket discipline. -/
theorem wellFormedPH_cons_none {cs : List Char} (hp : parsePH cs = none) :
    wellFormedPH ('[' :: cs) = false := by
  rw [wellFormedPH]
  show wellFormedF (cs.length + 1) ('[' :: cs) = false
  rw [wellFormedF, if_pos (show ('[' == '[') = true from rfl), hp]

/-- Every value of a successful cache lookup is a stored term of the cache. -/
theorem cacheGet_some_mem {cache : List (List Char × List Char)}
    {key v : List Char} (h : cacheGet cache key = some v) :
    ∃ k, (k, v) ∈ cache := by
  rw [cacheGet] at h
  rcases hf : cache.reverse.find? (fun p => p.1 == key) with _ | p
  · rw [hf] at h
    cases h
  · rw [hf] at h
    have hp := List.mem_of_find?_eq_some hf
    rw [List.mem_reverse] at hp
    injection h with h
    refine ⟨p.1, ?_⟩
    rw [← h]
    exact hp

/-- Idempotence of the unmask scan, by strong induction on the text length:
over a cache whose stored terms contain no `[`, and a text whose brackets
occur only as well-formed placeholder tokens, unmasking twice equals
unmasking once. -/
theorem unmask_idem_aux (cache : List (List Char × List Char))
    (hcache : ∀ kv ∈ cache, '[' ∉ kv.2) :
    ∀ (n : Nat) (x : List Char), x.length ≤ n → wellFormedPH x = true →
      unmaskChars cache (unmaskChars cache x) = unmaskChars cache x := by
  intro n
  induction n with
  | zero =>
    intro x hx _
    have hs : x = [] := List.length_eq_zero.mp (Nat.le_zero.mp hx)
    subst hs
    rfl
  | succ n ih =>
    intro x hx hwf
    cases x with
    | nil => rfl
    | cons c cs =>
      by_cases hbr : c = '['
      · subst hbr
        rcases hq : parsePH cs with _ | ⟨tok, rest⟩
        · rw [wellFormedPH_cons_none hq] at hwf
          cases hwf
        · have hwfr : wellFormedPH rest = true := by
            rw [wellFormedPH_cons_some hq] at hwf
            exact hwf
          have hrest : rest.length ≤ n :=
            Nat.le_trans (Nat.le_of_lt (parsePH_shrinks hq)) (Nat.le_of_succ_le_succ hx)
          rw [unmaskChars_cons_some cache hq]
          rcases parsePH_some_spec hq with ⟨L, I, hL, hLa, hI, hIa, htok, -⟩
          rcases hcg : cacheGet cache tok with _ | v
          · simp only [jsOr]
            rw [htok, unmask_tok cache _ hL hLa hI hIa, ← htok, hcg]
            simp only [jsOr]
            rw [ih rest hrest hwfr]
          · by_cases hve : v.isEmpty = true
            · simp only [jsOr]
              rw [if_pos hve, htok, unmask_tok cache _ hL hLa hI hIa, ← htok, hcg]
              simp only [jsOr]
              rw [if_pos hve, ih rest hrest hwfr]
            · have hv : '[' ∉ v := by
                rcases cacheGet_some_mem hcg with ⟨k, hk⟩
                exact hcache (k, v) hk
              simp only [jsOr]
              rw [if_neg hve, unmask_append_nobr cache _ hv, ih rest hrest hwfr]
      · rw [wellFormedPH_cons_of_ne cs hbr] at hwf
        simp only [Bool.and_eq_true] at hwf
        rcases hwf with ⟨-, hwf'⟩
        rw [unmaskChars_cons_of_ne cache _ hbr,
          unmaskChars_cons_of_ne cache _ hbr,
          ih cs (Nat.le_of_succ_le_succ hx) hwf']

/-- Claim C10 counterexample: each stored term of `cacheBad` contains no
substring matching the bracketed placeholder grammar, and `"[A_a1][B_b1]"`
has no malformed partial placeholders, yet unmasking twice differs from
unmasking once. -/
theorem unmask_idem_counterexample :
    cacheBad.all (fun kv => !containsPH kv.2) = true ∧
    wellFormedPH "[A_a1][B_b1]".data = true ∧
    unmaskChars cacheBad (unmaskChars cacheBad "[A_a1][B_b1]".data) ≠
      unmaskChars cacheBad "[A_a1][B_b1]".data := by decide

/-- Claim C10 (amended): for every cache whose stored terms contain no `[`
character and every text whose bracket characters occur only inside
well-formed placeholder tokens, `unmask (unmask x) = unmask x`. -/
theorem unmask_idempotent (cache : List (List Char × List Char)) (x : List Char)
    (hcache : ∀ kv ∈ cache, '[' ∉ kv.2) (hx : wellFormedPH x = true) :
    unmaskChars cache (unmaskChars cache x) = unmaskChars cache x :=
  unmask_idem_aux cache hcache x.length x (Nat.le_refl _) hx

/-- Claim C10 (amended) witness: idempotence on a concrete text mixing a cache
hit, a cache miss and plain characters. -/
theorem unmask_idempotent_w :
    unmaskChars cacheW (unmaskChars cacheW "go [Location_w1] or [B_b2]!".data) =
      unmaskChars cacheW "go [Location_w1] or [B_b2]!".data :=
  unmask_idempotent cacheW "go [Location_w1] or [B_b2]!".data
    (by decide) (by decide)

/-
Structure of the masking scan, towards the round-trip theorem.
-/

/-- A case-insensitive match consumes exactly the text it reports: the matched
characters followed by the rest reassemble the input. -/
theorem matchCI_append : ∀ {t s m r : List Char},
    matchCI t s = some (m, r) → m ++ r = s := by
  intro t
  induction t with
  | nil =>
    intro s m r h
    rw [matchCI] at h
    injection h with h
    injection h with h1 h2
    rw [← h1, ← h2]
    rfl
  | cons a t' ih =>
    intro s m r h
    cases s with
    | nil => cases h
    | cons c cs =>
      rw [matchCI] at h
      by_cases hac : a.toLower == c.toLower
      · rw [if_pos hac] at h
        rcases hm : matchCI t' cs with _ | ⟨m', r'⟩
        · rw [hm] at h
          cases h
        · rw [hm] at h
          simp only at h
          injection h with h
          injection h with h1 h2
          rw [← h1, ← h2]
          have := ih hm
          simp [this]
      · rw [if_neg hac] at h
        cases h

/-- What a successful `findAt` reports: a member of the alternation list whose
term matched with word boundaries. -/
theorem findAt_some {ts : List GEntry} {prev : Option Char} {text : List Char}
    {t : GEntry} {m r : List Char}
    (hfind : findAt ts prev text = some (t, m, r)) :
    t ∈ ts ∧ matchCI t.term text = some (m, r) := by
  induction ts with
  | nil => cases hfind
  | cons v rest ih =>
    rw [findAt] at hfind
    rcases hm : matchCI v.term text with _ | ⟨mv, rv⟩
    · rw [hm] at hfind
      simp only at hfind
      rcases ih hfind with ⟨h1, h2⟩
      exact ⟨List.mem_cons_of_mem v h1, h2⟩
    · rw [hm] at hfind
      simp only at hfind
      by_cases hok : matchOk prev mv rv = true
      · rw [if_pos hok] at hfind
        injection hfind with hfind
        cases hfind
        exact ⟨List.mem_cons_self _ _, hm⟩
      · rw [if_neg hok] at hfind
        rcases ih hfind with ⟨h1, h2⟩
        exact ⟨List.mem_cons_of_mem v h1, h2⟩

/-- A successful `findAt` strictly shrinks the text. -/
theorem findAt_shrinks {ts : List GEntry} {prev : Option Char} {text : List Char}
    {t : GEntry} {m r : List Char}
    (hfind : findAt ts prev text = some (t, m, r)) : r.length < text.length := by
  have hm := (findAt_some hfind).2
  have hne := (findAt_boundaries hfind).1
  have happ := matchCI_append hm
  rw [← happ]
  cases m with
  | nil => exact absurd rfl hne
  | cons a as =>
    simp only [List.cons_append, List.length_cons, List.length_append]
    omega

/-- The source characters of the replace decomposition reassemble the input
text. -/
theorem maskChunksF_src (ts : List GEntry) :
    ∀ (n : Nat) (prev : Option Char) (s : List Char), s.length ≤ n →
      (maskChunksF n ts prev s).flatMap chunkSrc = s := by
  intro n
  induction n with
  | zero =>
    intro prev s hn
    have hs : s = [] := List.length_eq_zero.mp (Nat.le_zero.mp hn)
    subst hs
    rfl
  | succ n ih =>
    intro prev s hn
    cases s with
    | nil => rfl
    | cons c cs =>
      rw [maskChunksF]
      rcases hf : findAt ts prev (c :: cs) with _ | ⟨⟨t, m, r⟩⟩
      · simp only [List.flatMap_cons, chunkSrc]
        rw [ih (some c) cs (Nat.le_of_succ_le_succ hn)]
        rfl
      · simp only [List.flatMap_cons, chunkSrc]
        have hr : r.length ≤ n :=
          Nat.le_of_lt_succ (Nat.lt_of_lt_of_le (findAt_shrinks hf) hn)
        rw [ih m.getLast? r hr]
        exact matchCI_append (findAt_some hf).2

/-- Each chunk of the replace decomposition is either a literal character of
the text or a replacement by a member of the alternation list. -/
theorem maskChunksF_mem (ts : List GEntry) :
    ∀ (n : Nat) (prev : Option Char) (s : List Char), s.length ≤ n →
      ∀ ch ∈ maskChunksF n ts prev s,
        (∀ c, ch = MChunk.lit c → c ∈ s) ∧ (∀ m t, ch = MChunk.rep m t → t ∈ ts) := by
  intro n
  induction n with
  | zero =>
    intro prev s hn ch hch
    have hs : s = [] := List.length_eq_zero.mp (Nat.le_zero.mp hn)
    subst hs
    cases hch
  | succ n ih =>
    intro prev s hn ch hch
    cases s with
    | nil => cases hch
    | cons c cs =>
      rw [maskChunksF] at hch
      rcases hf : findAt ts prev (c :: cs) with _ | ⟨⟨t, m, r⟩⟩
      · rw [hf] at hch
        simp only at hch
        rcases List.mem_cons.mp hch with rfl | hch'
        · refine ⟨fun c' hc' => ?_, fun m' t' h => by cases h⟩
          injection hc' with h
          rw [← h]
          simp
        · rcases ih (some c) cs (Nat.le_of_succ_le_succ hn) ch hch' with ⟨h1, h2⟩
          exact ⟨fun c' hc' => List.mem_cons_of_mem c (h1 c' hc'), h2⟩
      · rw [hf] at hch
        simp only at hch
        have hr : r.length ≤ n :=
          Nat.le_of_lt_succ (Nat.lt_of_lt_of_le (findAt_shrinks hf) hn)
        rcases List.mem_cons.mp hch with rfl | hch'
        · constructor
          · intro c' hc'
            cases hc'
          · intro m' t' h
            injection h with h1 h2
            rw [← h2]
            exact (findAt_some hf).1
        · rcases ih m.getLast? r hr ch hch' with ⟨h1, h2⟩
          refine ⟨fun c' hc' => ?_, h2⟩
          have hc'' := h1 c' hc'
          have happ := matchCI_append (findAt_some hf).2
          rw [← happ]
          exact List.mem_append_right m hc''

/-- `distinctIds` as a `Pairwise` statement. -/
theorem distinctIds_pairwise {g : List GEntry} (h : distinctIds g = true) :
    g.Pairwise (fun a b => a.id ≠ b.id) := by
  induction g with
  | nil => exact List.Pairwise.nil
  | cons t ts ih =>
    rw [distinctIds] at h
    simp only [Bool.and_eq_true] at h
    refine List.pairwise_cons.mpr ⟨?_, ih h.2⟩
    intro u hu
    exact bne_iff_ne.mp (List.all_eq_true.mp h.1 u hu)

/-- `distinctLowerTerms` as a `Pairwise` statement. -/
theorem distinctLowerTerms_pairwise {g : List GEntry}
    (h : distinctLowerTerms g = true) :
    g.Pairwise (fun a b => lowerStr a.term ≠ lowerStr b.term) := by
  induction g with
  | nil => exact List.Pairwise.nil
  | cons t ts ih =>
    rw [distinctLowerTerms] at h
    simp only [Bool.and_eq_true] at h
    refine List.pairwise_cons.mpr ⟨?_, ih h.2⟩
    intro u hu
    exact bne_iff_ne.mp (List.all_eq_true.mp h.1 u hu)

/-- On a list with pairwise-distinct lower-cased terms, searching for a
member's lower-cased term finds that member. -/
theorem find?_lower_self {l : List GEntry} {t : GEntry}
    (hl : l.Pairwise (fun a b => lowerStr a.term ≠ lowerStr b.term))
    (ht : t ∈ l) :
    l.find? (fun u => lowerStr u.term == lowerStr t.term) = some t := by
  induction l with
  | nil => cases ht
  | cons v vs ih =>
    rcases List.pairwise_cons.mp hl with ⟨hv, hvs⟩
    rcases List.mem_cons.mp ht with rfl | ht'
    · exact List.find?_cons_of_pos _ (by simp)
    · rw [List.find?_cons_of_neg _ (by simpa using hv t ht')]
      exact ih hvs ht'

/-- `termLookup.get(term.toLowerCase())` recovers the entry itself when the
lower-cased terms are pairwise distinct. -/
theorem lookupLower_self {ts : List GEntry} {t : GEntry}
    (hl : ts.Pairwise (fun a b => lowerStr a.term ≠ lowerStr b.term))
    (ht : t ∈ ts) :
    lookupLower ts (lowerStr t.term) = some t := by
  rw [lookupLower]
  refine find?_lower_self ?_ (List.mem_reverse.mpr ht)
  rw [List.pairwise_reverse]
  exact hl.imp (fun h => h.symm)

/-- Injectivity around the `_` separator when both prefixes are alphabetic. -/
theorem alpha_append_inj : ∀ {A B x y : List Char},
    (∀ c ∈ A, c.isAlpha = true) → (∀ c ∈ B, c.isAlpha = true) →
    A ++ '_' :: x = B ++ '_' :: y → A = B ∧ x = y := by
  intro A
  induction A with
  | nil =>
    intro B x y _ hB h
    cases B with
    | nil =>
      simp only [List.nil_append] at h
      injection h with _ h2
      exact ⟨rfl, h2⟩
    | cons b B' =>
      exfalso
      simp only [List.nil_append, List.cons_append] at h
      injection h with h1 _
      have hb := hB b (by simp)
      rw [← h1] at hb
      exact absurd hb (by decide)
  | cons a A' ih =>
    intro B x y hA hB h
    cases B with
    | nil =>
      exfalso
      simp only [List.nil_append, List.cons_append] at h
      injection h with h1 _
      have ha := hA a (by simp)
      rw [h1] at ha
      exact absurd ha (by decide)
    | cons b B' =>
      simp only [List.cons_append] at h
      injection h with h1 h2
      rcases ih (fun c hc => hA c (by simp [hc])) (fun c hc => hB c (by simp [hc]))
        h2 with ⟨hAB, hxy⟩
      exact ⟨by rw [h1, hAB], hxy⟩

/-- Placeholders of entries with alphabetic categories determine the category
and the id. -/
theorem placeholderOf_inj {t u : GEntry}
    (ht : ∀ c ∈ t.category, c.isAlpha = true)
    (hu : ∀ c ∈ u.category, c.isAlpha = true)
    (h : placeholderOf t = placeholderOf u) :
    t.category = u.category ∧ t.id = u.id := by
  rw [placeholderOf, placeholderOf] at h
  injection h with hhead h
  rcases alpha_append_inj ht hu h with ⟨hcat, hid⟩
  exact ⟨hcat, (List.append_inj' hid rfl).1⟩

/-- Searching an association list at a key whose value is unique yields that
value. -/
theorem find?_key_unique {l : List (List Char × List Char)} {k v : List Char}
    (hmem : (k, v) ∈ l)
    (huniq : ∀ p ∈ l, p.1 = k → p.2 = v) :
    ∃ p, l.find? (fun q => q.1 == k) = some p ∧ p.2 = v := by
  induction l with
  | nil => cases hmem
  | cons q l' ih =>
    by_cases hq : q.1 = k
    · exact ⟨q, List.find?_cons_of_pos _ (by simpa using hq), huniq q (by simp) hq⟩
    · rw [List.find?_cons_of_neg _ (by simpa using hq)]
      rcases List.mem_cons.mp hmem with heq | hmem'
      · exact absurd (show q.1 = k by rw [← heq]) hq
      · exact ih hmem' (fun p hp hk => huniq p (by simp [hp]) hk)

/-- The glossary cache of `loadGlossaryCache` maps the placeholder of each
row back to that row's term, when categories are alphabetic and ids are
pairwise distinct. -/
theorem cacheGet_self {g : List GEntry} {t : GEntry}
    (hwfcat : ∀ u ∈ g, ∀ c ∈ u.category, c.isAlpha = true)
    (hids : g.Pairwise (fun a b => a.id ≠ b.id))
    (ht : t ∈ g) :
    cacheGet (buildCache g) (placeholderOf t) = some t.term := by
  have hmem : (placeholderOf t, t.term) ∈ (buildCache g).reverse := by
    rw [List.mem_reverse, buildCache]
    exact List.mem_map_of_mem _ ht
  have huniq : ∀ p ∈ (buildCache g).reverse, p.1 = placeholderOf t →
      p.2 = t.term := by
    intro p hp hkey
    rw [List.mem_reverse, buildCache, List.mem_map] at hp
    rcases hp with ⟨u, hu, hpu⟩
    rw [← hpu] at hkey ⊢
    simp only at hkey ⊢
    rcases placeholderOf_inj (hwfcat u hu) (hwfcat t ht) hkey with ⟨-, hid⟩
    have hut : u = t := by
      by_contra hne
      exact absurd hid (List.Pairwise.forall (fun a b h => Ne.symm h) hids hu ht hne)
    rw [hut]
  rcases find?_key_unique hmem huniq with ⟨p, hfind, hval⟩
  rw [cacheGet, hfind]
  simp [hval]

/-- A built text over a glossary with bracket-free terms contains no `[`. -/
theorem builtOk_no_br {g : List GEntry} (hg : ∀ t ∈ g, '[' ∉ t.term) :
    ∀ (segs : List Seg) (prev : Option Char), builtOk g prev segs = true →
      '[' ∉ renderSegs segs := by
  intro segs
  induction segs with
  | nil =>
    intro prev _ hmem
    cases hmem
  | cons sg rest ih =>
    intro prev hok hmem
    rw [renderSegs, List.flatMap_cons] at hmem
    rcases List.mem_append.mp hmem with hm | hm
    · cases sg with
      | term t =>
        rw [builtOk] at hok
        simp only [Bool.and_eq_true] at hok
        have htg : t ∈ g := by
          have := hok.1.1.1
          simpa using this
        exact hg t htg (by simpa [segText] using hm)
      | filler s =>
        rw [builtOk] at hok
        simp only [Bool.and_eq_true] at hok
        have hfil := hok.1
        rw [fillerOk] at hfil
        simp only [Bool.and_eq_true] at hfil
        have hs : s.contains '[' = false := by
          have := hfil.1.1
          simpa using this
        have hns : ¬ '[' ∈ s := by simpa using hs
        exact hns (by simpa [segText] using hm)
    · cases sg with
      | term t =>
        rw [builtOk] at hok
        simp only [Bool.and_eq_true] at hok
        exact ih _ hok.2 hm
      | filler s =>
        rw [builtOk] at hok
        simp only [Bool.and_eq_true] at hok
        exact ih _ hok.2 hm

/-- Round trip of the replace decomposition: rendering the chunks (placeholder
substitution) and then unmasking with the glossary cache restores the source
characters, provided every replaced span is exactly its term. -/
theorem unmask_mask_chunks {g ts : List GEntry}
    (hts : ∀ t ∈ ts, t ∈ g)
    (hlower : ts.Pairwise (fun a b => lowerStr a.term ≠ lowerStr b.term))
    (hwf : ∀ t ∈ g,
      t.category ≠ [] ∧ (∀ c ∈ t.category, c.isAlpha = true) ∧
      t.id ≠ [] ∧ (∀ c ∈ t.id, isIdChar c = true) ∧ t.term ≠ [])
    (hids : g.Pairwise (fun a b => a.id ≠ b.id)) :
    ∀ chunks : List MChunk,
      (∀ ch ∈ chunks, (∀ c, ch = MChunk.lit c → c ≠ '[') ∧
        (∀ m t, ch = MChunk.rep m t → t ∈ ts ∧ m = t.term)) →
      unmaskChars (buildCache g) (chunks.flatMap (renderChunk ts)) =
        chunks.flatMap chunkSrc := by
  intro chunks
  induction chunks with
  | nil => intro _; rfl
  | cons ch rest ih =>
    intro hcond
    have hch := hcond ch (by simp)
    have hrest : ∀ ch' ∈ rest, (∀ c, ch' = MChunk.lit c → c ≠ '[') ∧
        (∀ m t, ch' = MChunk.rep m t → t ∈ ts ∧ m = t.term) :=
      fun ch' h => hcond ch' (by simp [h])
    cases ch with
    | lit c =>
      have hc : c ≠ '[' := hch.1 c rfl
      simp only [List.flatMap_cons, renderChunk, chunkSrc, List.singleton_append]
      rw [unmaskChars_cons_of_ne _ _ hc, ih hrest]
    | rep m t =>
      rcases hch.2 m t rfl with ⟨htts, hmt⟩
      have htg : t ∈ g := hts t htts
      rcases hwf t htg with ⟨hcat, hcata, hid, hida, hterm⟩
      simp only [List.flatMap_cons, renderChunk, chunkSrc]
      rw [hmt, lookupLower_self hlower htts]
      simp only
      rw [show placeholderOf t = '[' :: (t.category ++ '_' :: (t.id ++ [']']))
          from rfl,
        unmask_tok (buildCache g) _ hcat hcata hid hida,
        show ('[' :: (t.category ++ '_' :: (t.id ++ [']']))) = placeholderOf t
          from rfl,
        cacheGet_self (fun u hu => (hwf u hu).2.1) hids htg]
      simp only [jsOr]
      rw [if_neg (by simpa [List.isEmpty_iff] using hterm), ih hrest]

/-- Claim C1 counterexample: over the glossary {Skyrim, Skyrim Hold} (well
formed, distinct ids, case-insensitively distinct terms), the text
`"Skyrim hOLD"` is built by concatenating the glossary term `Skyrim` (as a
whole word, in glossary casing) and the bracket-free filler `" hOLD"` whose
word matches no glossary term - yet `unmask(mask(text))` returns
`"Skyrim Hold"`, not the original text: the mask matched the longer term
case-insensitively across the segment boundary and unmask restores the
glossary casing. -/
theorem mask_roundtrip_counterexample :
    gLongest.all entryWF = true ∧
    distinctIds gLongest = true ∧
    distinctLowerTerms gLongest = true ∧
    builtOk gLongest none
      [Seg.term (mkEntry "a1" "Skyrim" "Location"), Seg.filler " hOLD".data] = true ∧
    renderSegs [Seg.term (mkEntry "a1" "Skyrim" "Location"),
      Seg.filler " hOLD".data] = "Skyrim hOLD".data ∧
    unmaskChars (buildCache gLongest) (maskChars gLongest "Skyrim hOLD".data) ≠
      "Skyrim hOLD".data := by decide

/-- Claim C1 (amended): for every glossary whose rows are well formed
(category `[A-Za-z]+`, id `[a-z0-9]+`, non-empty bracket-free term) with
pairwise-distinct ids and pairwise case-insensitively-distinct terms, and
every text built by concatenating glossary terms and plain filler words, if
additionally every span the masker replaces is verbatim a glossary term (its
exact glossary casing - ruling out case-variant occurrences assembled across
segment boundaries), then `unmask(mask(text)) = text` with the cache keyed by
`[Category_Id]`. -/
theorem mask_unmask_roundtrip (g : List GEntry) (text : List Char)
    (hwf : g.all entryWF = true)
    (hids : distinctIds g = true)
    (hterms : distinctLowerTerms g = true)
    (hbuilt : BuiltFrom g text)
    (hcase : (maskChunks (sortTerms g) text).all repExact = true) :
    unmaskChars (buildCache g) (maskChars g text) = text := by
  have hwfe : ∀ t ∈ g, entryWF t = true := List.all_eq_true.mp hwf
  have hparts : ∀ t ∈ g,
      t.category ≠ [] ∧ (∀ c ∈ t.category, c.isAlpha = true) ∧
      t.id ≠ [] ∧ (∀ c ∈ t.id, isIdChar c = true) ∧ t.term ≠ [] := by
    intro t ht
    have h := hwfe t ht
    rw [entryWF] at h
    simp only [Bool.and_eq_true] at h
    obtain ⟨⟨⟨⟨⟨⟨h1, h2⟩, h3⟩, h4⟩, h5⟩, h6⟩, h7⟩ := h
    refine ⟨?_, List.all_eq_true.mp h2, ?_, List.all_eq_true.mp h4, ?_⟩
    · intro hc
      rw [hc] at h1
      simp at h1
    · intro hc
      rw [hc] at h3
      simp at h3
    · intro hc
      rw [hc] at h5
      simp at h5
  have hbr : ∀ t ∈ g, '[' ∉ t.term := by
    intro t ht
    have h := hwfe t ht
    rw [entryWF] at h
    simp only [Bool.and_eq_true] at h
    obtain ⟨⟨⟨⟨⟨⟨h1, h2⟩, h3⟩, h4⟩, h5⟩, h6⟩, h7⟩ := h
    simpa using h6
  rcases hbuilt with ⟨segs, hsegs, hrender⟩
  have htext : '[' ∉ text := by
    rw [← hrender]
    exact builtOk_no_br hbr segs none hsegs
  have hperm := sortTerms_perm g
  have hts : ∀ t ∈ sortTerms g, t ∈ g := fun t ht => hperm.mem_iff.mp ht
  have hlower : (sortTerms g).Pairwise
      (fun a b => lowerStr a.term ≠ lowerStr b.term) := by
    rw [hperm.pairwise_iff (fun h => h.symm)]
    exact distinctLowerTerms_pairwise hterms
  have hchunks := List.all_eq_true.mp hcase
  have hlen : text.length ≤ text.length := Nat.le_refl _
  have hcond : ∀ ch ∈ maskChunks (sortTerms g) text,
      (∀ c, ch = MChunk.lit c → c ≠ '[') ∧
      (∀ m t, ch = MChunk.rep m t → t ∈ sortTerms g ∧ m = t.term) := by
    intro ch hch
    have hmem := maskChunksF_mem (sortTerms g) text.length none text hlen ch hch
    refine ⟨fun c hc hcbr => htext (hcbr ▸ hmem.1 c hc), fun m t hmt => ?_⟩
    refine ⟨hmem.2 m t hmt, ?_⟩
    have hre := hchunks ch hch
    rw [hmt] at hre
    simp only [repExact] at hre
    exact beq_iff_eq.mp hre
  have hmain := unmask_mask_chunks hts hlower hparts (distinctIds_pairwise hids)
    (maskChunks (sortTerms g) text) hcond
  rw [maskChars, maskList, hmain, maskChunks]
  exact maskChunksF_src (sortTerms g) text.length none text hlen

/-- Claim C1 (amended) witness: the spec's end-to-end example round-trips. -/
theorem mask_unmask_roundtrip_w :
    unmaskChars (buildCache gWhiterun)
      (maskChars gWhiterun "Welcome to Whiterun, traveler.".data) =
      "Welcome to Whiterun, traveler.".data :=
  mask_unmask_roundtrip gWhiterun "Welcome to Whiterun, traveler.".data
    (by decide) (by decide) (by decide)
    ⟨[Seg.filler "Welcome to ".data, Seg.term (mkEntry "w1" "Whiterun" "Location"),
      Seg.filler ", traveler.".data], by decide, by decide⟩
    (by decide)

end SkyrimTranslate
